import Mathlib

set_option linter.unusedVariables false

/-! Shallow embedding of two components of the repository:
(1) the `Indexed` span type of `src/vendor/rocket_http/src/parse/indexed.rs` (called
    `Span` here, the spec's name, because the Rust type and its first constructor share
    the name `Indexed`), specialised to byte sequences (`List Nat`), with a
    memory-address model for the pointer arithmetic of `checked_from`; and
(2) the bounded peek/stream reader `Data` of `src/vendor/rocket/src/data/data.rs`. -/

/-- Outcome of a Rust computation that may panic: `.panic` marks a Rust `panic!` call,
`.ok` a normal return.  Used to embed the panicking operations of `indexed.rs`. -/
inductive PanicOr (α : Type) where
  | panic
  | ok (a : α)
deriving DecidableEq

/-- The span type `Indexed` of `indexed.rs`: either a pair of byte offsets into an
external buffer or a concrete (owned) value.  Source constructors:
`Indexed::Indexed(usize, usize)` and `Indexed::Concrete(Cow<T>)`; specialised here to
`T = [u8]` with bytes as `Nat`. -/
inductive Span where
  | Indexed (a b : Nat)
  | Concrete (v : List Nat)
deriving DecidableEq

/-- A borrowed slice together with its memory start address, modelling a Rust `&T`
plus its `as_ptr()` value as a natural number. -/
structure Slice where
  addr : Nat
  data : List Nat
deriving DecidableEq

/-- The `Length` of a slice (`needle.len()` / `haystack.len()` in the source). -/
def Slice.len (s : Slice) : Nat := s.data.length

/-- The subslice `&B[i..j]`: its start address is `B`'s address plus `i` (byte elements),
its content the bytes of `B` from position `i` up to `j`. -/
def Slice.sub (B : Slice) (i j : Nat) : Slice :=
  { addr := B.addr + i, data := (B.data.drop i).take (j - i) }

/-- `Indexed::checked_from` (indexed.rs lines 115-130): compares the address ranges of
`needle` and `haystack`, returns `none` unless `needle` lies fully inside `haystack`,
else the offsets of `needle` relative to `haystack`'s start. -/
def Span.checked_from (needle haystack : Slice) : Option Span :=
  let haystack_start := haystack.addr
  let needle_start := needle.addr
  if needle_start < haystack_start then
    none
  else if needle_start + needle.len > haystack_start + haystack.len then
    none
  else
    let start := needle_start - haystack_start
    some (.Indexed start (start + needle.len))

/-- Rust range indexing `&source[i..j]`: panics when the range is invalid for the slice. -/
def listSlice (source : List Nat) (i j : Nat) : PanicOr (List Nat) :=
  if i ≤ j ∧ j ≤ source.length then .ok ((source.drop i).take (j - i)) else .panic

/-- `Indexed::from_source` (indexed.rs lines 183-192): panics when the span is indexed and
`source` is `None`; otherwise an indexed span slices the source with its offsets, and a
`Concrete` span returns its own value, ignoring `source`. -/
def Span.from_source : Span → Option (List Nat) → PanicOr (List Nat)
  | .Indexed i j, some src => listSlice src i j
  | .Indexed _ _, none => .panic
  | .Concrete v, _ => .ok v

/-- `IntoOwned for Indexed` (indexed.rs lines 83-92): an `Indexed` span keeps its offsets
unchanged; a `Concrete` span has its `Cow` payload deep-copied (the identity on the
modelled value). -/
def Span.into_owned : Span → Span
  | .Indexed a b => .Indexed a b
  | .Concrete v => .Concrete v

/-- `Add for Indexed` (indexed.rs lines 96-109): combines `Indexed(a,b)` and `Indexed(c,d)`
into `Indexed(a,d)` when `b == c && a < d`; every other case, including a `Concrete`
operand on either side, takes a `panic!` arm. -/
def Span.add : Span → Span → PanicOr Span
  | .Indexed a b, .Indexed c d => if b = c ∧ a < d then .ok (.Indexed a d) else .panic
  | .Indexed _ _, .Concrete _ => .panic
  | .Concrete _, _ => .panic

/-! ### The bounded peek/stream reader `Data` (src/vendor/rocket/src/data/data.rs)

The asynchronous byte source behind `Data.stream` is modelled by the remaining source
bytes `rest` together with a schedule `sched` describing, read call by read call, how the
source behaves: `ReadEv.avail n` means the pending read resumes with `n + 1` source bytes
ready (an awaited read only resumes once at least one byte, an end-of-stream, or an error
is available), and `ReadEv.ioerr` means the read fails with an I/O error.  Once the
schedule is exhausted, every remaining source byte is considered ready.  `tokio`'s
`read_buf` on a `Vec<u8>` fills at most the vector's spare capacity, growing the vector
(amortised doubling, at least 64 additional bytes) only when it is full; the field `cap`
tracks that capacity (`Vec::with_capacity(PEEK_BYTES / 8)` in `from_hyp`). -/

/-- One step of source behaviour for a single `read_buf` call. -/
inductive ReadEv where
  | avail (n : Nat)
  | ioerr
deriving DecidableEq

/-- The state of `Data` (data.rs lines 44-48): the prefix buffer (with its capacity), the
completion flag, and the underlying source (remaining bytes plus behaviour schedule). -/
structure Data where
  buffer : List Nat
  cap : Nat
  is_complete : Bool
  rest : List Nat
  sched : List ReadEv
deriving DecidableEq

/-- `PEEK_BYTES` (data.rs line 10). -/
def PEEK_BYTES : Nat := 512

/-- Capacity growth of `Vec<u8>` under `bytes::BufMut`: when the vector is full its
capacity grows (amortised doubling, at least 64 more); otherwise it is unchanged. -/
def reserveCap (cap len : Nat) : Nat :=
  if len = cap then max (cap * 2) (cap + 64) else cap

/-- Result of one `read_buf` call: the bytes read (`Ok(n)`, where `.bytes []` is `Ok(0)`,
the source-exhausted signal) or an I/O error. -/
inductive ReadRes where
  | bytes (bs : List Nat)
  | ioerr
deriving DecidableEq

/-- Number of bytes one successful `read_buf` call transfers: bounded by the spare
capacity of the buffer, by the bytes the source has ready, and by the bytes it has
left. -/
def readK (d : Data) (avail : Nat) : Nat :=
  min (reserveCap d.cap d.buffer.length - d.buffer.length) (min avail d.rest.length)

/-- A successful `read_buf` with `avail` source bytes ready: fills at most the spare
capacity of the buffer, appending the bytes read and consuming them from the source. -/
def readBytes (d : Data) (avail : Nat) (s' : List ReadEv) : ReadRes × Data :=
  let k := readK d avail
  let bs := d.rest.take k
  (.bytes bs,
   { buffer := d.buffer ++ bs, cap := reserveCap d.cap d.buffer.length,
     is_complete := d.is_complete, rest := d.rest.drop k, sched := s' })

/-- `self.stream.read_buf(&mut self.buffer).await` (data.rs line 164): consumes the next
schedule event; with the schedule exhausted, all remaining source bytes are available. -/
def readBuf (d : Data) : ReadRes × Data :=
  match d.sched with
  | .ioerr :: s' => (.ioerr, { d with sched := s' })
  | .avail n :: s' => readBytes d (n + 1) s'
  | [] => readBytes d d.rest.length []

/-- The read loop of `Data::peek` (data.rs lines 163-172).  Returns the new state and the
number of `read_buf` calls made on the underlying source.  `fuel` bounds the iterations;
every non-final iteration strictly grows the buffer, so the `num + 1` passed by `peek` is
never exhausted. -/
def peekLoop : Nat → Nat → Data → Data × Nat
  | 0, _, d => (d, 0)
  | fuel + 1, num, d =>
    if d.buffer.length < num then
      match readBuf d with
      | (.bytes [], d') => ({ d' with is_complete := true }, 1)
      | (.bytes (_ :: _), d') => ((peekLoop fuel num d').1, (peekLoop fuel num d').2 + 1)
      | (.ioerr, d') => (d', 1)
    else (d, 0)

/-- `Data::peek` (data.rs lines 156-175): clamps `num` to `PEEK_BYTES`, returns the first
`num` buffered bytes immediately when enough are buffered, and otherwise runs the read
loop and returns `buffer[..min(len, num)]`.  Result: the returned slice, the new reader
state, and the number of `read_buf` calls made on the underlying source. -/
def Data.peek (d : Data) (n : Nat) : List Nat × Data × Nat :=
  let num := min PEEK_BYTES n
  if num ≤ d.buffer.length then
    (d.buffer.take num, d, 0)
  else
    ((peekLoop (num + 1) num d).1.buffer.take (min (peekLoop (num + 1) num d).1.buffer.length num),
     (peekLoop (num + 1) num d).1,
     (peekLoop (num + 1) num d).2)

/-- `Data::from_hyp` (data.rs lines 51-59): empty prefix buffer with capacity
`PEEK_BYTES / 8`, completion flag unset, live source. -/
def Data.from_hyp (rest : List Nat) (sched : List ReadEv) : Data :=
  { buffer := [], cap := PEEK_BYTES / 8, is_complete := false, rest := rest, sched := sched }

/-- `Data::local` (data.rs lines 63-69): the whole payload in the prefix buffer, an empty
stream, completion flag set immediately.  (Named `local'`: `local` is a Lean keyword.) -/
def Data.local' (data : List Nat) : Data :=
  { buffer := data, cap := data.length, is_complete := true, rest := [], sched := [] }

/-- `buffer_limit` of `Data::open` (data.rs line 89). -/
def bufferLimit (d : Data) (limit : Nat) : Nat := min d.buffer.length limit

/-- `stream_limit` of `Data::open` (data.rs line 90). -/
def streamLimit (d : Data) (limit : Nat) : Nat := limit - bufferLimit d limit

/-- Modelled from the spec: the byte production of the `DataStream` returned by
`Data::open` (data.rs lines 88-94) — the `DataStream` reading code (data_stream.rs) is
not under `src/`.  Per the spec, the stream first yields up to `buffer_limit` bytes from
the prefix buffer, then bytes from the underlying source until `limit - buffer_limit`
more have been delivered or the source is exhausted.  The limits themselves are computed
exactly as in `Data::open`. -/
def Data.open (d : Data) (limit : Nat) : List Nat :=
  d.buffer.take (bufferLimit d limit) ++ d.rest.take (streamLimit d limit)

/-- Reader states reachable by a construction (`from_hyp` from a live stream, or `local`
from an in-memory payload) followed by any sequence of `peek` calls. -/
inductive Reachable : Data → Prop where
  | from_hyp (rest : List Nat) (sched : List ReadEv) : Reachable (Data.from_hyp rest sched)
  | local' (data : List Nat) : Reachable (Data.local' data)
  | peek (d : Data) (n : Nat) : Reachable d → Reachable (d.peek n).2.1

/-- A reader source that can never again deliver a byte: the remaining source is
exhausted, or the buffer has (pathologically) outgrown its capacity, so the spare
capacity stays zero. -/
def Stuck (d : Data) : Prop := d.rest = [] ∨ d.cap < d.buffer.length

/-- An error-free source behaviour schedule. -/
def NoErr (s : List ReadEv) : Prop := ∀ e ∈ s, e ≠ ReadEv.ioerr

/-- The capacities a stream-constructed reader's buffer can take: 64 (the initial
`PEEK_BYTES / 8`) doubled at most up to the peek window. -/
def CapOk (c : Nat) : Prop := c = 64 ∨ c = 128 ∨ c = 256 ∨ c = 512

/-- Invariant for the prefix-buffer bound: either the buffer is within a capacity that
never exceeds the peek window, or the source is exhausted with the completion flag set
(the in-memory construction). -/
def BufInv (d : Data) : Prop :=
  (d.buffer.length ≤ d.cap ∧ CapOk d.cap) ∨ (d.rest = [] ∧ d.is_complete = true)

/-- Claim C1: for every buffer `B` and sub-range `[i, j)` with `i ≤ j ≤ |B|`,
`checked_from` applied to the subslice `B[i..j]` and `B` returns the span `Indexed(i, j)`,
and resolving that span against `some B` yields exactly the bytes of `B[i..j]`. -/
theorem checked_from_roundtrip (B : Slice) (i j : Nat) (h1 : i ≤ j) (h2 : j ≤ B.data.length) :
    Span.checked_from (B.sub i j) B = some (.Indexed i j) ∧
    (Span.Indexed i j).from_source (some B.data) = .ok (B.sub i j).data := by
  have hl : ((B.data.drop i).take (j - i)).length = j - i := by
    simp only [List.length_take, List.length_drop]
    omega
  constructor
  · simp only [Span.checked_from, Slice.sub, Slice.len, hl]
    rw [if_neg (by omega), if_neg (by omega)]
    simp only [Option.some.injEq, Span.Indexed.injEq]
    omega
  · simp only [Span.from_source, listSlice, Slice.sub]
    rw [if_pos ⟨h1, h2⟩]

/-- Witness for C1 at `B = ⟨0, [3, 4, 5]⟩`, `i = 1`, `j = 3`. -/
theorem checked_from_roundtrip_witness :
    Span.checked_from ((Slice.mk 0 [3, 4, 5]).sub 1 3) (Slice.mk 0 [3, 4, 5]) =
        some (.Indexed 1 3) ∧
    (Span.Indexed 1 3).from_source (some (Slice.mk 0 [3, 4, 5]).data) =
        .ok ((Slice.mk 0 [3, 4, 5]).sub 1 3).data :=
  checked_from_roundtrip (Slice.mk 0 [3, 4, 5]) 1 3 (by decide) (by decide)

/-- Claim C3 counterexample: detaching the span `Indexed(0,1)` (derived from the buffer
`[5]`) with `into_owned` yields a span whose resolved content still tracks whatever buffer
is supplied: resolving against the mutated buffer `[9]` gives different bytes than
resolving against the original `[5]`.  So `into_owned` does not make an `Indexed` span's
content independent of the backing buffer. -/
theorem into_owned_dependence_cex :
    (Span.into_owned (.Indexed 0 1)).from_source (some [5]) ≠
      (Span.into_owned (.Indexed 0 1)).from_source (some [9]) := by
  decide

/-- Claim C3 amended: `into_owned` deep-copies only a `Concrete` span, whose observable
content is then independent of any supplied buffer; an `Indexed` span keeps its offsets
unchanged, so its resolution continues to depend on the buffer it is resolved against. -/
theorem into_owned_amended :
    (∀ (v : List Nat) (src : Option (List Nat)),
      (Span.into_owned (.Concrete v)).from_source src = .ok v) ∧
    (∀ (a b : Nat) (src : Option (List Nat)),
      (Span.into_owned (.Indexed a b)).from_source src =
        (Span.Indexed a b).from_source src) := by
  constructor
  · intro v src
    cases src <;> rfl
  · intro a b src
    cases src <;> rfl

/-- Claim C6 counterexample: merging the non-adjacent spans `Indexed(0,1)` and
`Indexed(2,3)` takes the `panic!` arm of `Add for Indexed`: the failure is a crash, not a
`MergeNonAdjacent` result value surfaced to the caller. -/
theorem add_nonadjacent_cex :
    Span.add (.Indexed 0 1) (.Indexed 2 3) = .panic := by
  decide

/-- Claim C6 amended: merging `Indexed(a,b)` with `Indexed(c,d)` yields the combined span
`Indexed(a,d)` exactly when `b = c` and `a < d`; in every other case, including when
either operand is a `Concrete` (owned) span, the code panics (a crash) rather than
returning a `MergeNonAdjacent` error value. -/
theorem add_amended :
    (∀ a b c d : Nat,
      (Span.add (.Indexed a b) (.Indexed c d) = .ok (.Indexed a d) ↔ b = c ∧ a < d) ∧
      (¬(b = c ∧ a < d) → Span.add (.Indexed a b) (.Indexed c d) = .panic)) ∧
    (∀ (x : Span) (v : List Nat),
      Span.add x (.Concrete v) = .panic ∧ Span.add (.Concrete v) x = .panic) := by
  constructor
  · intro a b c d
    refine ⟨⟨fun he => ?_, fun hc => by simp only [Span.add, if_pos hc]⟩,
            fun hn => by simp only [Span.add, if_neg hn]⟩
    by_contra hn
    simp only [Span.add, if_neg hn] at he
    exact PanicOr.noConfusion he
  · intro x v
    cases x <;> exact ⟨rfl, rfl⟩

/-- Witness for the amended C6: a non-adjacent pair panics, an adjacent pair combines. -/
theorem add_amended_witness :
    Span.add (.Indexed 0 1) (.Indexed 2 3) = .panic ∧
    Span.add (.Indexed 0 1) (.Indexed 1 3) = .ok (.Indexed 0 3) :=
  ⟨(add_amended.1 0 1 2 3).2 (by decide), (add_amended.1 0 1 1 3).1.mpr (by decide)⟩

/-- Claim C8: resolving an `Indexed(i,j)` span against a present, in-bounds source returns
the slice `source[i..j]`; resolving it with no source fails (the source code's panic — the
failure mode the spec names `ResolveWithoutSource` — which propagates to the caller); a
`Concrete` span returns its owned value and is unaffected by whether a source is
supplied. -/
theorem from_source_behaviour :
    (∀ (i j : Nat) (src : List Nat), i ≤ j → j ≤ src.length →
      Span.from_source (.Indexed i j) (some src) = .ok ((src.drop i).take (j - i))) ∧
    (∀ i j : Nat, Span.from_source (.Indexed i j) none = .panic) ∧
    (∀ (v : List Nat) (s1 s2 : Option (List Nat)),
      Span.from_source (.Concrete v) s1 = .ok v ∧
      Span.from_source (.Concrete v) s1 = Span.from_source (.Concrete v) s2) := by
  refine ⟨?_, ?_, ?_⟩
  · intro i j src hij hjl
    simp only [Span.from_source, listSlice]
    rw [if_pos ⟨hij, hjl⟩]
  · intro i j
    rfl
  · intro v s1 s2
    cases s1 <;> cases s2 <;> exact ⟨rfl, rfl⟩

/-- Witness for C8 at `i = 0`, `j = 1`, `src = [7, 8]`, `v = [9]`. -/
theorem from_source_behaviour_witness :
    Span.from_source (.Indexed 0 1) (some [7, 8]) = .ok (([7, 8].drop 0).take (1 - 0)) ∧
    Span.from_source (.Indexed 0 1) none = .panic ∧
    Span.from_source (.Concrete [9]) (some [7, 8]) = .ok [9] :=
  ⟨from_source_behaviour.1 0 1 [7, 8] (by decide) (by decide),
   from_source_behaviour.2.1 0 1,
   (from_source_behaviour.2.2 [9] (some [7, 8]) none).1⟩


/-! ### Helper lemmas about the reader -/

theorem take_min_length (l : List Nat) (m : Nat) : l.take (min l.length m) = l.take m := by
  rcases Nat.le_total l.length m with h | h
  · rw [Nat.min_eq_left h, List.take_length, List.take_of_length_le h]
  · rw [Nat.min_eq_right h]

theorem take_nil_drop (l : List Nat) (k : Nat) (hz : l.take k = []) : l.drop k = l := by
  rcases l with _ | ⟨x, xs⟩
  · simp
  · rcases k with _ | k
    · simp
    · simp at hz

theorem readBytes_fst (d : Data) (avail : Nat) (s' : List ReadEv) :
    (readBytes d avail s').1 = .bytes (d.rest.take (readK d avail)) := rfl

theorem readBytes_buffer (d : Data) (avail : Nat) (s' : List ReadEv) :
    (readBytes d avail s').2.buffer = d.buffer ++ d.rest.take (readK d avail) := rfl

theorem readBytes_rest (d : Data) (avail : Nat) (s' : List ReadEv) :
    (readBytes d avail s').2.rest = d.rest.drop (readK d avail) := rfl

theorem readBytes_cap (d : Data) (avail : Nat) (s' : List ReadEv) :
    (readBytes d avail s').2.cap = reserveCap d.cap d.buffer.length := rfl

theorem readBytes_complete (d : Data) (avail : Nat) (s' : List ReadEv) :
    (readBytes d avail s').2.is_complete = d.is_complete := rfl

theorem readBytes_sched (d : Data) (avail : Nat) (s' : List ReadEv) :
    (readBytes d avail s').2.sched = s' := rfl

theorem readBuf_shape (d : Data) :
    (readBuf d = (.ioerr, { d with sched := d.sched.tail }) ∧ d.sched.head? = some .ioerr) ∨
    (∃ avail, (avail = 0 → d.rest = []) ∧ readBuf d = readBytes d avail d.sched.tail) := by
  rcases hs : d.sched with _ | ⟨ev, s'⟩
  · right
    refine ⟨d.rest.length, fun h => List.eq_nil_of_length_eq_zero h, ?_⟩
    simp only [readBuf, hs, List.tail_nil]
  · cases ev with
    | avail n =>
      right
      refine ⟨n + 1, fun h => absurd h (Nat.succ_ne_zero n), ?_⟩
      simp only [readBuf, hs, List.tail_cons]
    | ioerr =>
      left
      refine ⟨?_, rfl⟩
      simp only [readBuf, hs, List.tail_cons]

theorem readBuf_ioerr_info (d : Data) (hb : (readBuf d).1 = .ioerr) :
    (readBuf d).2 = { d with sched := d.sched.tail } ∧ d.sched.head? = some .ioerr := by
  rcases readBuf_shape d with ⟨h, hh⟩ | ⟨avail, ha, h⟩
  · rw [h]
    exact ⟨rfl, hh⟩
  · rw [h, readBytes_fst] at hb
    exact ReadRes.noConfusion hb

theorem readBuf_bytes_info (d : Data) (bs : List Nat) (hb : (readBuf d).1 = .bytes bs) :
    (readBuf d).2.buffer = d.buffer ++ bs ∧ (readBuf d).2.is_complete = d.is_complete := by
  rcases readBuf_shape d with ⟨h, hh⟩ | ⟨avail, ha, h⟩
  · rw [h] at hb
    exact ReadRes.noConfusion hb
  · rw [h] at hb ⊢
    rw [readBytes_fst] at hb
    simp only [ReadRes.bytes.injEq] at hb
    rw [readBytes_buffer, readBytes_complete, hb]
    exact ⟨rfl, rfl⟩

theorem readK_zero_stuck (d : Data) (avail : Nat) (ha : avail = 0 → d.rest = [])
    (hz : d.rest.take (readK d avail) = []) : Stuck d := by
  rcases hr : d.rest with _ | ⟨x, xs⟩
  · exact Or.inl hr
  · right
    have hrlen : d.rest.length = xs.length + 1 := by rw [hr]; simp
    have havail : 0 < avail := by
      rcases Nat.eq_zero_or_pos avail with h0 | h0
      · rw [ha h0] at hr
        cases hr
      · exact h0
    have hk : readK d avail = 0 := by
      by_contra hk0
      have hpos := Nat.pos_of_ne_zero hk0
      have hlz := congrArg List.length hz
      simp only [List.length_take, List.length_nil] at hlz
      omega
    have hspare : reserveCap d.cap d.buffer.length - d.buffer.length = 0 := by
      unfold readK at hk
      omega
    unfold reserveCap at hspare
    by_cases he : d.buffer.length = d.cap
    · rw [if_pos he] at hspare
      omega
    · rw [if_neg he] at hspare
      omega

theorem readBuf_nil_info (d : Data) (hb : (readBuf d).1 = .bytes []) :
    Stuck d ∧ Stuck (readBuf d).2 ∧ (readBuf d).2.buffer = d.buffer ∧
    (readBuf d).2.rest = d.rest ∧ (readBuf d).2.is_complete = d.is_complete := by
  rcases readBuf_shape d with ⟨h, hh⟩ | ⟨avail, ha, h⟩
  · rw [h] at hb
    exact ReadRes.noConfusion hb
  · rw [h] at hb ⊢
    rw [readBytes_fst] at hb
    simp only [ReadRes.bytes.injEq] at hb
    have hstuck : Stuck d := readK_zero_stuck d avail ha hb
    have hbuf : (readBytes d avail d.sched.tail).2.buffer = d.buffer := by
      rw [readBytes_buffer, hb, List.append_nil]
    have hrest : (readBytes d avail d.sched.tail).2.rest = d.rest := by
      rw [readBytes_rest]
      exact take_nil_drop _ _ hb
    refine ⟨hstuck, ?_, hbuf, hrest, readBytes_complete d avail d.sched.tail⟩
    rcases hstuck with h1 | h1
    · left
      rw [hrest]
      exact h1
    · right
      rw [hbuf, readBytes_cap]
      unfold reserveCap
      rw [if_neg (by omega)]
      exact h1

theorem readBuf_stuck_info (d : Data) (h : Stuck d) :
    (readBuf d).2.buffer = d.buffer ∧ (readBuf d).2.rest = d.rest ∧
    (readBuf d).2.is_complete = d.is_complete ∧ Stuck (readBuf d).2 ∧
    ((readBuf d).1 = .ioerr ∨ (readBuf d).1 = .bytes []) := by
  rcases hbs : (readBuf d).1 with bs | _
  · rcases bs with _ | ⟨x, xs⟩
    · have hi := readBuf_nil_info d hbs
      exact ⟨hi.2.2.1, hi.2.2.2.1, hi.2.2.2.2, hi.2.1, Or.inr rfl⟩
    · exfalso
      rcases readBuf_shape d with ⟨hsh, _⟩ | ⟨avail, ha, hsh⟩
      · rw [hsh] at hbs
        exact ReadRes.noConfusion hbs
      · rw [hsh, readBytes_fst] at hbs
        simp only [ReadRes.bytes.injEq] at hbs
        have hz : d.rest.take (readK d avail) = [] := by
          rcases h with h1 | h1
          · rw [h1]
            simp
          · have hk : readK d avail = 0 := by
              unfold readK reserveCap
              rw [if_neg (by omega)]
              omega
            rw [hk]
            simp
        rw [hz] at hbs
        exact List.noConfusion hbs
  · have hi := readBuf_ioerr_info d hbs
    rw [hi.1]
    refine ⟨rfl, rfl, rfl, ?_, Or.inl rfl⟩
    rcases h with h1 | h1
    · exact Or.inl h1
    · exact Or.inr h1

theorem noErr_sub {s1 s2 : List ReadEv} (h : NoErr s2) (hsub : ∀ e ∈ s1, e ∈ s2) :
    NoErr s1 :=
  fun e he => h e (hsub e he)

theorem readBuf_sched_sub (d : Data) : ∀ e ∈ (readBuf d).2.sched, e ∈ d.sched := by
  rcases readBuf_shape d with ⟨h, hh⟩ | ⟨avail, ha, h⟩
  · intro e he
    rw [h] at he
    dsimp only at he
    exact List.mem_of_mem_tail he
  · intro e he
    rw [h, readBytes_sched] at he
    exact List.mem_of_mem_tail he

theorem peekLoop_zero (num : Nat) (d : Data) : peekLoop 0 num d = (d, 0) := rfl

theorem peekLoop_else (fuel num : Nat) (d : Data) (h : ¬ d.buffer.length < num) :
    peekLoop (fuel + 1) num d = (d, 0) := by
  simp [peekLoop, h]

theorem peekLoop_buffer_extend (fuel num : Nat) :
    ∀ d : Data, ∃ t, (peekLoop fuel num d).1.buffer = d.buffer ++ t := by
  induction fuel with
  | zero =>
    intro d
    exact ⟨[], by simp [peekLoop_zero]⟩
  | succ fuel ih =>
    intro d
    by_cases h : d.buffer.length < num
    · rcases hb : readBuf d with ⟨res, d'⟩
      rcases res with bs | _
      · rcases bs with _ | ⟨x, xs⟩
        · have hni := readBuf_nil_info d (by rw [hb])
          rw [hb] at hni
          dsimp only at hni
          refine ⟨[], ?_⟩
          simp only [peekLoop, if_pos h, hb]
          rw [List.append_nil]
          exact hni.2.2.1
        · have hbi := readBuf_bytes_info d (x :: xs) (by rw [hb])
          rw [hb] at hbi
          dsimp only at hbi
          obtain ⟨t, ht⟩ := ih d'
          refine ⟨(x :: xs) ++ t, ?_⟩
          simp only [peekLoop, if_pos h, hb]
          rw [ht, hbi.1, List.append_assoc]
      · have hii := readBuf_ioerr_info d (by rw [hb])
        rw [hb] at hii
        dsimp only at hii
        refine ⟨[], ?_⟩
        simp only [peekLoop, if_pos h, hb]
        rw [List.append_nil, hii.1]
    · exact ⟨[], by simp [peekLoop_else fuel num d h]⟩

theorem peekLoop_sched_sub (fuel num : Nat) :
    ∀ d : Data, ∀ e ∈ (peekLoop fuel num d).1.sched, e ∈ d.sched := by
  induction fuel with
  | zero =>
    intro d e he
    simpa [peekLoop_zero] using he
  | succ fuel ih =>
    intro d e he
    by_cases h : d.buffer.length < num
    · rcases hb : readBuf d with ⟨res, d'⟩
      have hsub : ∀ e ∈ d'.sched, e ∈ d.sched := by
        intro e he
        exact readBuf_sched_sub d e (by rw [hb]; exact he)
      rcases res with bs | _
      · rcases bs with _ | ⟨x, xs⟩
        · simp only [peekLoop, if_pos h, hb] at he
          exact hsub e he
        · simp only [peekLoop, if_pos h, hb] at he
          exact hsub e (ih d' e he)
      · simp only [peekLoop, if_pos h, hb] at he
        exact hsub e he
    · simp only [peekLoop_else fuel num d h] at he
      exact he

theorem peekLoop_stuck (fuel num : Nat) (d : Data) (h : Stuck d) :
    (peekLoop fuel num d).1.buffer = d.buffer ∧ (peekLoop fuel num d).1.rest = d.rest ∧
    Stuck (peekLoop fuel num d).1 ∧ (peekLoop fuel num d).2 ≤ 1 ∧
    (d.is_complete = true → (peekLoop fuel num d).1.is_complete = true) := by
  rcases fuel with _ | fuel
  · rw [peekLoop_zero]
    exact ⟨rfl, rfl, h, Nat.zero_le 1, fun hc => hc⟩
  · by_cases hlt : d.buffer.length < num
    · rcases hb : readBuf d with ⟨res, d'⟩
      have hsi := readBuf_stuck_info d h
      rw [hb] at hsi
      dsimp only at hsi
      rcases hsi.2.2.2.2 with rfl | rfl
      · simp only [peekLoop, if_pos hlt, hb]
        exact ⟨hsi.1, hsi.2.1, hsi.2.2.2.1, le_refl 1, fun hc => hsi.2.2.1.trans hc⟩
      · simp only [peekLoop, if_pos hlt, hb]
        exact ⟨hsi.1, hsi.2.1, hsi.2.2.2.1, le_refl 1, fun hc => by simp⟩
    · rw [peekLoop_else fuel num d hlt]
      exact ⟨rfl, rfl, h, Nat.zero_le 1, fun hc => hc⟩

theorem peekLoop_complete (fuel num : Nat) :
    ∀ d : Data, (peekLoop fuel num d).1.is_complete = true →
      d.is_complete = true ∨ Stuck (peekLoop fuel num d).1 := by
  induction fuel with
  | zero =>
    intro d hc
    left
    simpa [peekLoop_zero] using hc
  | succ fuel ih =>
    intro d hc
    by_cases h : d.buffer.length < num
    · rcases hb : readBuf d with ⟨res, d'⟩
      rcases res with bs | _
      · rcases bs with _ | ⟨x, xs⟩
        · right
          have hni := readBuf_nil_info d (by rw [hb])
          rw [hb] at hni
          dsimp only at hni
          simp only [peekLoop, if_pos h, hb]
          exact hni.2.1
        · have hbi := readBuf_bytes_info d (x :: xs) (by rw [hb])
          rw [hb] at hbi
          dsimp only at hbi
          simp only [peekLoop, if_pos h, hb] at hc ⊢
          rcases ih d' hc with h1 | h1
          · left
            rw [← hbi.2]
            exact h1
          · right
            exact h1
      · have hii := readBuf_ioerr_info d (by rw [hb])
        rw [hb] at hii
        dsimp only at hii
        simp only [peekLoop, if_pos h, hb] at hc ⊢
        left
        rw [hii.1] at hc
        simpa using hc
    · left
      simpa [peekLoop_else fuel num d h] using hc

theorem peekLoop_exit (fuel num : Nat) :
    ∀ d : Data, NoErr d.sched → num ≤ d.buffer.length + fuel →
      num ≤ (peekLoop fuel num d).1.buffer.length ∨ Stuck (peekLoop fuel num d).1 := by
  induction fuel with
  | zero =>
    intro d hne hf
    left
    rw [peekLoop_zero]
    dsimp only
    omega
  | succ fuel ih =>
    intro d hne hf
    by_cases h : d.buffer.length < num
    · rcases hb : readBuf d with ⟨res, d'⟩
      rcases res with bs | _
      · rcases bs with _ | ⟨x, xs⟩
        · right
          have hni := readBuf_nil_info d (by rw [hb])
          rw [hb] at hni
          dsimp only at hni
          simp only [peekLoop, if_pos h, hb]
          exact hni.2.1
        · have hbi := readBuf_bytes_info d (x :: xs) (by rw [hb])
          rw [hb] at hbi
          dsimp only at hbi
          have hlen : d'.buffer.length = d.buffer.length + (xs.length + 1) := by
            rw [hbi.1]
            simp
          have hsub : ∀ e ∈ d'.sched, e ∈ d.sched := by
            intro e he
            exact readBuf_sched_sub d e (by rw [hb]; exact he)
          simp only [peekLoop, if_pos h, hb]
          exact ih d' (noErr_sub hne hsub) (by omega)
      · exfalso
        have hii := readBuf_ioerr_info d (by rw [hb])
        have hmem : ReadEv.ioerr ∈ d.sched :=
          List.mem_of_mem_head? (by rw [Option.mem_def, hii.2])
        exact hne _ hmem rfl
    · left
      rw [peekLoop_else fuel num d h]
      dsimp only
      omega

theorem readBytes_inv (d : Data) (avail : Nat) (s' : List ReadEv)
    (hlen : d.buffer.length < PEEK_BYTES) (hi : BufInv d) :
    BufInv (readBytes d avail s').2 := by
  rcases hi with ⟨hlc, hc⟩ | ⟨hr, hcpl⟩
  · left
    constructor
    · rw [readBytes_buffer, readBytes_cap]
      have hk : readK d avail ≤ reserveCap d.cap d.buffer.length - d.buffer.length :=
        Nat.min_le_left _ _
      have htk : (d.rest.take (readK d avail)).length ≤ readK d avail := by
        rw [List.length_take]
        exact Nat.min_le_left _ _
      have hcl : d.buffer.length ≤ reserveCap d.cap d.buffer.length := by
        unfold reserveCap
        by_cases he : d.buffer.length = d.cap
        · rw [if_pos he]
          omega
        · rw [if_neg he]
          omega
      simp only [List.length_append]
      omega
    · rw [readBytes_cap]
      unfold reserveCap
      by_cases he : d.buffer.length = d.cap
      · rw [if_pos he]
        unfold CapOk at hc ⊢
        unfold PEEK_BYTES at hlen
        rcases hc with h64 | h128 | h256 | h512 <;> omega
      · rw [if_neg he]
        exact hc
  · right
    constructor
    · rw [readBytes_rest, hr]
      simp
    · rw [readBytes_complete]
      exact hcpl

theorem peekLoop_inv (fuel num : Nat) (hnum : num ≤ PEEK_BYTES) :
    ∀ d : Data, BufInv d → BufInv (peekLoop fuel num d).1 := by
  induction fuel with
  | zero =>
    intro d hi
    rw [peekLoop_zero]
    exact hi
  | succ fuel ih =>
    intro d hi
    by_cases h : d.buffer.length < num
    · rcases hb : readBuf d with ⟨res, d'⟩
      rcases res with bs | _
      · have hstep : BufInv d' := by
          rcases readBuf_shape d with ⟨hsh, _⟩ | ⟨avail, ha, hsh⟩
          · rw [hsh] at hb
            exact ReadRes.noConfusion (congrArg Prod.fst hb)
          · rw [hsh] at hb
            have hd' : d' = (readBytes d avail d.sched.tail).2 := by rw [hb]
            rw [hd']
            exact readBytes_inv d avail _ (by omega) hi
        rcases bs with _ | ⟨x, xs⟩
        · simp only [peekLoop, if_pos h, hb]
          rcases hstep with h1 | h1
          · exact Or.inl h1
          · exact Or.inr ⟨h1.1, rfl⟩
        · simp only [peekLoop, if_pos h, hb]
          exact ih d' hstep
      · have hii := readBuf_ioerr_info d (by rw [hb])
        rw [hb] at hii
        dsimp only at hii
        simp only [peekLoop, if_pos h, hb]
        rw [hii.1]
        exact hi
    · rw [peekLoop_else fuel num d h]
      exact hi

theorem peek_of_le (d : Data) (n : Nat) (h : min PEEK_BYTES n ≤ d.buffer.length) :
    d.peek n = (d.buffer.take (min PEEK_BYTES n), d, 0) := by
  simp only [Data.peek]
  rw [if_pos h]

theorem peek_of_gt (d : Data) (n : Nat) (h : d.buffer.length < min PEEK_BYTES n) :
    d.peek n =
      ((peekLoop (min PEEK_BYTES n + 1) (min PEEK_BYTES n) d).1.buffer.take
         (min (peekLoop (min PEEK_BYTES n + 1) (min PEEK_BYTES n) d).1.buffer.length
              (min PEEK_BYTES n)),
       (peekLoop (min PEEK_BYTES n + 1) (min PEEK_BYTES n) d).1,
       (peekLoop (min PEEK_BYTES n + 1) (min PEEK_BYTES n) d).2) := by
  simp only [Data.peek]
  rw [if_neg (by omega)]

theorem peek_slice (d : Data) (n : Nat) :
    (d.peek n).1 = (d.peek n).2.1.buffer.take (min PEEK_BYTES n) := by
  by_cases h : min PEEK_BYTES n ≤ d.buffer.length
  · rw [peek_of_le d n h]
  · rw [peek_of_gt d n (by omega)]
    exact take_min_length _ _

theorem peek_buffer_extend (d : Data) (n : Nat) :
    ∃ t, (d.peek n).2.1.buffer = d.buffer ++ t := by
  by_cases h : min PEEK_BYTES n ≤ d.buffer.length
  · rw [peek_of_le d n h]
    exact ⟨[], by simp⟩
  · rw [peek_of_gt d n (by omega)]
    exact peekLoop_buffer_extend _ _ d

theorem peek_exit (d : Data) (n : Nat) (herr : NoErr d.sched) :
    min PEEK_BYTES n ≤ (d.peek n).2.1.buffer.length ∨ Stuck (d.peek n).2.1 := by
  by_cases h : min PEEK_BYTES n ≤ d.buffer.length
  · rw [peek_of_le d n h]
    exact Or.inl h
  · rw [peek_of_gt d n (by omega)]
    exact peekLoop_exit _ _ d herr (by omega)

theorem peek_sched_sub (d : Data) (n : Nat) : ∀ e ∈ (d.peek n).2.1.sched, e ∈ d.sched := by
  by_cases h : min PEEK_BYTES n ≤ d.buffer.length
  · rw [peek_of_le d n h]
    exact fun e he => he
  · rw [peek_of_gt d n (by omega)]
    exact peekLoop_sched_sub _ _ d

theorem peek_stuck (d : Data) (n : Nat) (h : Stuck d) :
    (d.peek n).2.1.buffer = d.buffer ∧ (d.peek n).2.1.rest = d.rest ∧
    Stuck (d.peek n).2.1 ∧ (d.peek n).2.2 ≤ 1 ∧
    (d.is_complete = true → (d.peek n).2.1.is_complete = true) := by
  by_cases hle : min PEEK_BYTES n ≤ d.buffer.length
  · rw [peek_of_le d n hle]
    exact ⟨rfl, rfl, h, Nat.zero_le 1, fun hc => hc⟩
  · rw [peek_of_gt d n (by omega)]
    exact peekLoop_stuck _ _ d h

theorem peek_inv (d : Data) (n : Nat) (hi : BufInv d) : BufInv (d.peek n).2.1 := by
  by_cases h : min PEEK_BYTES n ≤ d.buffer.length
  · rw [peek_of_le d n h]
    exact hi
  · rw [peek_of_gt d n (by omega)]
    exact peekLoop_inv _ _ (Nat.min_le_left _ _) d hi

theorem peek_complete_stuck (d : Data) (n : Nat)
    (hd : d.is_complete = true → Stuck d) (hc : (d.peek n).2.1.is_complete = true) :
    Stuck (d.peek n).2.1 := by
  by_cases h : min PEEK_BYTES n ≤ d.buffer.length
  · rw [peek_of_le d n h] at hc ⊢
    exact hd hc
  · rw [peek_of_gt d n (by omega)] at hc ⊢
    rcases peekLoop_complete _ _ d hc with h1 | h1
    · exact (peekLoop_stuck _ _ d (hd h1)).2.2.1
    · exact h1

theorem reachable_bufInv (d : Data) (h : Reachable d) : BufInv d := by
  induction h with
  | from_hyp rest sched =>
    left
    exact ⟨Nat.zero_le _, Or.inl rfl⟩
  | local' data =>
    right
    exact ⟨rfl, rfl⟩
  | peek d n hd ih =>
    exact peek_inv d n ih

theorem reachable_complete_stuck (d : Data) (h : Reachable d) :
    d.is_complete = true → Stuck d := by
  induction h with
  | from_hyp rest sched =>
    intro hc
    exact absurd hc (by simp [Data.from_hyp])
  | local' data =>
    intro hc
    exact Or.inl rfl
  | peek d n hd ih =>
    intro hc
    exact peek_complete_stuck d n ih hc

/-! ### Claim theorems for the reader -/

/-- Claim C2: for every reader state (prefix buffer contents, completion flag, remaining
source bytes) and every limit, the stream returned by `open limit` produces exactly
`min limit (prefix buffer length + remaining source length)` bytes — in particular never
more than `limit`, however many bytes the underlying source holds. -/
theorem open_length (d : Data) (limit : Nat) :
    (d.open limit).length = min limit (d.buffer.length + d.rest.length) ∧
    (d.open limit).length ≤ limit := by
  simp only [Data.open, bufferLimit, streamLimit, List.length_append, List.length_take]
  constructor <;> omega

/-- Claim C10: in `open`, `buffer_limit = min(prefix buffer length, limit)` never exceeds
`limit`, so the remaining-stream allowance `limit - buffer_limit` is a well-defined
non-negative quantity — the subtraction can never underflow, and the two allowances sum
back to `limit`. -/
theorem open_buffer_limit_safe (d : Data) (limit : Nat) :
    bufferLimit d limit ≤ limit ∧ bufferLimit d limit + streamLimit d limit = limit := by
  simp only [bufferLimit, streamLimit]
  constructor <;> omega

/-- Claim C7: `peek` never signals an error — it is a total function over every source
behaviour, including schedules containing I/O error events, and always returns the
currently buffered contents: the returned slice is the new buffer truncated at the
clamped request `min PEEK_BYTES n`, its length is `min (buffered length) (clamped n)`,
and when the buffer already holds the clamped `n` bytes the state is returned unchanged
with zero `read_buf` calls. -/
theorem peek_never_fails (d : Data) (n : Nat) :
    (d.peek n).1 = (d.peek n).2.1.buffer.take (min PEEK_BYTES n) ∧
    (d.peek n).1.length = min ((d.peek n).2.1.buffer.length) (min PEEK_BYTES n) ∧
    (min PEEK_BYTES n ≤ d.buffer.length →
      d.peek n = (d.buffer.take (min PEEK_BYTES n), d, 0)) := by
  refine ⟨peek_slice d n, ?_, fun h => peek_of_le d n h⟩
  rw [peek_slice d n, List.length_take]
  omega

/-- Witness for C7 at the reader `local [1, 2]` and `n = 1` (buffer already sufficient). -/
theorem peek_never_fails_witness :
    ((Data.local' [1, 2]).peek 1).1 =
      ((Data.local' [1, 2]).peek 1).2.1.buffer.take (min PEEK_BYTES 1) ∧
    ((Data.local' [1, 2]).peek 1).1.length =
      min (((Data.local' [1, 2]).peek 1).2.1.buffer.length) (min PEEK_BYTES 1) ∧
    (min PEEK_BYTES 1 ≤ (Data.local' [1, 2]).buffer.length →
      (Data.local' [1, 2]).peek 1 =
        ((Data.local' [1, 2]).buffer.take (min PEEK_BYTES 1), Data.local' [1, 2], 0)) :=
  peek_never_fails (Data.local' [1, 2]) 1

/-- Claim C4: over an error-free source, `peek n1` followed by `peek n2` with
`n1 ≤ n2` is prefix-stable: the first slice equals the first
`min n1 (length of the second slice)` bytes of the second slice. -/
theorem peek_monotonic (d : Data) (n1 n2 : Nat) (h12 : n1 ≤ n2) (herr : NoErr d.sched) :
    (d.peek n1).1 =
      ((d.peek n1).2.1.peek n2).1.take (min n1 ((d.peek n1).2.1.peek n2).1.length) := by
  have hr1 : (d.peek n1).1 = (d.peek n1).2.1.buffer.take (min PEEK_BYTES n1) :=
    peek_slice d n1
  have hr2 : ((d.peek n1).2.1.peek n2).1 =
      ((d.peek n1).2.1.peek n2).2.1.buffer.take (min PEEK_BYTES n2) :=
    peek_slice (d.peek n1).2.1 n2
  obtain ⟨t2, ht2⟩ := peek_buffer_extend (d.peek n1).2.1 n2
  have hexit := peek_exit d n1 herr
  rw [hr1, hr2, List.length_take, List.take_take]
  rcases hexit with hge | hstuck
  · have hlen2 : (d.peek n1).2.1.buffer.length ≤
        ((d.peek n1).2.1.peek n2).2.1.buffer.length := by
      rw [ht2]
      simp
    rw [show min (min n1 (min (min PEEK_BYTES n2) ((d.peek n1).2.1.peek n2).2.1.buffer.length))
          (min PEEK_BYTES n2) = min PEEK_BYTES n1 from by omega]
    rw [ht2, List.take_append_eq_append_take]
    rw [show min PEEK_BYTES n1 - (d.peek n1).2.1.buffer.length = 0 from by omega]
    simp
  · have hb2 : ((d.peek n1).2.1.peek n2).2.1.buffer = (d.peek n1).2.1.buffer :=
      (peek_stuck (d.peek n1).2.1 n2 hstuck).1
    rw [hb2]
    by_cases hc : min PEEK_BYTES n1 ≤ (d.peek n1).2.1.buffer.length
    · rw [show min (min n1 (min (min PEEK_BYTES n2) (d.peek n1).2.1.buffer.length))
            (min PEEK_BYTES n2) = min PEEK_BYTES n1 from by omega]
    · rw [show min (min n1 (min (min PEEK_BYTES n2) (d.peek n1).2.1.buffer.length))
            (min PEEK_BYTES n2) = (d.peek n1).2.1.buffer.length from by omega]
      rw [List.take_length, List.take_of_length_le (by omega)]

/-- Witness for C4: a fresh stream reader over `[1, 2, 3]` whose first read delivers one
byte; `peek 1` then `peek 2`. -/
theorem peek_monotonic_witness :
    ((Data.from_hyp [1, 2, 3] [ReadEv.avail 0]).peek 1).1 =
      (((Data.from_hyp [1, 2, 3] [ReadEv.avail 0]).peek 1).2.1.peek 2).1.take
        (min 1 (((Data.from_hyp [1, 2, 3] [ReadEv.avail 0]).peek 1).2.1.peek 2).1.length) :=
  peek_monotonic (Data.from_hyp [1, 2, 3] [ReadEv.avail 0]) 1 2 (by decide)
    (by unfold NoErr; decide)

set_option maxRecDepth 8192 in
/-- Claim C5 counterexample: the reader built by `Data::local` from a 513-byte in-memory
payload is a reachable state whose prefix buffer holds 513 bytes — more than the 512-byte
peek window — while the exception the claim allows (entire body smaller than the window)
does not apply, the body being 513 bytes. -/
theorem buffer_window_cex :
    Reachable (Data.local' (List.replicate 513 0)) ∧
    ¬((Data.local' (List.replicate 513 0)).buffer.length ≤ PEEK_BYTES ∨
      ((Data.local' (List.replicate 513 0)).buffer.length +
          (Data.local' (List.replicate 513 0)).rest.length < PEEK_BYTES ∧
        (Data.local' (List.replicate 513 0)).rest = [] ∧
        (Data.local' (List.replicate 513 0)).is_complete = true)) :=
  ⟨Reachable.local' _, by decide⟩

/-- Claim C5 amended: in every reachable reader state, the prefix buffer holds at most
the peek window (512 bytes) unless the buffer already holds the entire body with the
completion flag set — which is the case when the body is smaller than the window, and
also, for a payload of any size, when the reader was constructed by `Data::local` from an
in-memory payload. -/
theorem buffer_window_amended (d : Data) (h : Reachable d) :
    d.buffer.length ≤ PEEK_BYTES ∨ (d.rest = [] ∧ d.is_complete = true) := by
  rcases reachable_bufInv d h with ⟨hlc, hc⟩ | hr
  · left
    unfold CapOk at hc
    unfold PEEK_BYTES
    omega
  · right
    exact hr

/-- Witness for the amended C5 at the reachable state `local [7]`. -/
theorem buffer_window_amended_witness :
    (Data.local' [7]).buffer.length ≤ PEEK_BYTES ∨
      ((Data.local' [7]).rest = [] ∧ (Data.local' [7]).is_complete = true) :=
  buffer_window_amended (Data.local' [7]) (Reachable.local' [7])

/-- Claim C9 counterexample: `Data::local` marks the reader complete, yet a later call
`peek 3` on the two-byte local body `[1, 2]` still performs one `read_buf` call on the
underlying (empty) source — a read is attempted after the completion flag is set, because
`peek` re-enters its read loop whenever the buffer holds fewer than the clamped `n`
bytes, without consulting the flag. -/
theorem read_after_complete_cex :
    (Data.local' [1, 2]).is_complete = true ∧ ((Data.local' [1, 2]).peek 3).2.2 = 1 := by
  constructor
  · rfl
  · decide

/-- Claim C9 amended: once the completion flag is set (in a reachable state), no
subsequent read obtains any bytes: a later `peek`, with any argument, attempts at most one
`read_buf` call, which returns zero bytes, and leaves the buffer, the remaining source,
and the completion flag unchanged. -/
theorem no_bytes_after_complete (d : Data) (n : Nat) (h : Reachable d)
    (hc : d.is_complete = true) :
    (d.peek n).2.1.buffer = d.buffer ∧ (d.peek n).2.1.rest = d.rest ∧
    (d.peek n).2.1.is_complete = true ∧ (d.peek n).2.2 ≤ 1 := by
  have hs := reachable_complete_stuck d h hc
  have hp := peek_stuck d n hs
  exact ⟨hp.1, hp.2.1, hp.2.2.2.2 hc, hp.2.2.2.1⟩

/-- Witness for the amended C9 at the complete reachable state `local [5]`, `peek 2`. -/
theorem no_bytes_after_complete_witness :
    ((Data.local' [5]).peek 2).2.1.buffer = (Data.local' [5]).buffer ∧
    ((Data.local' [5]).peek 2).2.1.rest = (Data.local' [5]).rest ∧
    ((Data.local' [5]).peek 2).2.1.is_complete = true ∧ ((Data.local' [5]).peek 2).2.2 ≤ 1 :=
  no_bytes_after_complete (Data.local' [5]) 2 (Reachable.local' [5]) rfl
